import Mathlib

/-!
Formal model of the Backquant backtest engine (backtest_script.py).

The script's core is a rebalancing/valuation simulation loop.  Machine
floats are modelled by exact rationals; pandas/yfinance data providers are
modelled as oracle functions supplied as parameters (the script treats them
as external collaborators and only observes their returned tables).  Python
operations that raise (float division by zero) are modelled by Option.

Dates are modelled as natural numbers counting days since 1970-01-01 (a
Thursday), the proleptic Gregorian calendar pandas uses.  A pandas business
day (freq B) is a Monday..Friday; BMS / BQS / BYS anchored offsets generate
the first business day of each month / quarter (Jan, Apr, Jul, Oct) / year.
-/

/-- Day-of-week based business-day test: day 0 (1970-01-01) was a Thursday,
so day d is Mon..Fri exactly when (d + 3) % 7 < 5. -/
def isBusinessDay (d : ℕ) : Bool :=
  (d + 3) % 7 < 5

/-- Civil (Gregorian) date from a day count since 1970-01-01, as
(year, month, day).  Standard days-to-civil conversion over ℕ (valid for
all days at or after the epoch, the only ones the script can see). -/
def civilOfDays (z : ℕ) : ℕ × ℕ × ℕ :=
  let z' := z + 719468
  let era := z' / 146097
  let doe := z' % 146097
  let yoe := (doe - doe / 1460 + doe / 36524 - doe / 146096) / 365
  let y := yoe + era * 400
  let doy := doe - (365 * yoe + yoe / 4 - yoe / 100)
  let mp := (5 * doy + 2) / 153
  let dayN := doy - (153 * mp + 2) / 5 + 1
  let m := if mp < 10 then mp + 3 else mp - 9
  (if m ≤ 2 then y + 1 else y, m, dayN)

/-- Month (1..12) of a day count. -/
def monthOf (d : ℕ) : ℕ := (civilOfDays d).2.1

/-- Day of month (1..31) of a day count. -/
def dayOfMonth (d : ℕ) : ℕ := (civilOfDays d).2.2

/-- First business day of a month (pandas BMS anchor): a business day all of
whose same-month predecessors are non-business days. -/
def isBMSday (d : ℕ) : Bool :=
  isBusinessDay d && (List.range (dayOfMonth d - 1)).all (fun k => !isBusinessDay (d - (k + 1)))

/-- First business day of a quarter (pandas BQS anchor, quarters starting
Jan/Apr/Jul/Oct). -/
def isBQSday (d : ℕ) : Bool :=
  isBMSday d && (monthOf d == 1 || monthOf d == 4 || monthOf d == 7 || monthOf d == 10)

/-- First business day of a year (pandas BYS anchor). -/
def isBYSday (d : ℕ) : Bool :=
  isBMSday d && (monthOf d == 1)

/-- Rebalance frequency choices of the CLI (choices=["monthly", "quarterly",
"annually"]); an unknown frequency never reaches get_rebalance_dates because
argparse rejects it, and the function itself raises ValueError. -/
inductive Frequency where
  | monthly
  | quarterly
  | annually
deriving DecidableEq

/-- On-offset test for a pandas anchored date offset. -/
def isPeriodStart (freq : Frequency) (d : ℕ) : Bool :=
  match freq with
  | .monthly => isBMSday d
  | .quarterly => isBQSday d
  | .annually => isBYSday d

/-- Model of get_rebalance_dates (backtest_script.py lines 97-122):
pd.date_range(start, end, freq) yields every on-offset date inside
[start, end] in increasing order; the script then re-filters the result to
[start, end] (lines 116-117, a no-op kept for faithfulness). -/
def get_rebalance_dates (startD endD : ℕ) (freq : Frequency) : List ℕ :=
  let dr := ((List.range (endD + 1 - startD)).map (fun k => startD + k)).filter
    (fun d => isPeriodStart freq d)
  (dr.filter (fun d => startD ≤ d)).filter (fun d => d ≤ endD)

/-!  Allocation engine (backtest_script.py lines 229-245). -/

/-- numpy clip: np.clip(x, lo, hi) = min(hi, max(x, lo)). -/
def npClip (x lo hi : ℚ) : ℚ := min hi (max x lo)

/-- Equal weight 1/len, clamp each into [minA, maxA] (np.clip), then divide
each clamped weight by the sum of clamped weights (lines 239-245, also
duplicated at lines 275-278).  Python raises ZeroDivisionError when the sum
of clamped weights is 0.0, modelled by none. -/
def clampNormalize (sel : List String) (minA maxA : ℚ) : Option (List (String × ℚ)) :=
  let w : ℚ := 1 / (sel.length : ℚ)
  let raw := sel.map (fun t => (t, npClip w minA maxA))
  let s := (raw.map (fun p => p.2)).sum
  if s = 0 then none else some (raw.map (fun p => (p.1, p.2 / s)))

/-- Min-allocation feasibility shrink (lines 229-233): when
min_alloc * num_selected > 1.0 the list is truncated to
int(1.0 / min_alloc) tickers (int() truncates toward zero; the argument is
positive here, so it is the floor). -/
def shrinkSelected (sel : List String) (minA : ℚ) : List String :=
  if 1 < minA * (sel.length : ℚ) then sel.take (Int.floor (1 / minA)).toNat else sel

/-- The snd-projection of a constant-second-component pairing map is a
replicate list. -/
theorem map_snd_const (sel : List String) (c : ℚ) :
    (sel.map (fun t => (t, c))).map (fun p : String × ℚ => p.2)
      = List.replicate sel.length c := by
  induction sel with
  | nil => rfl
  | cons a l ih => simp [ih, List.replicate_succ]

/-- Evaluation of clampNormalize on a nonempty ticker list with a positive
max bound: every clamped weight is the same positive constant, so the
renormalization turns every weight into exactly 1/len — whatever the
clamping did. -/
theorem clampNormalize_eq (sel : List String) (minA maxA : ℚ)
    (hne : sel ≠ []) (h2 : 0 < maxA) :
    clampNormalize sel minA maxA =
      some (sel.map (fun t => (t, 1 / (sel.length : ℚ)))) := by
  have hlen : 0 < sel.length := List.length_pos.mpr hne
  have hlenQ : (0 : ℚ) < (sel.length : ℚ) := by exact_mod_cast hlen
  have hw : (0 : ℚ) < 1 / (sel.length : ℚ) := by positivity
  have hcpos : 0 < npClip (1 / (sel.length : ℚ)) minA maxA := by
    rw [npClip]
    exact lt_min h2 (lt_max_of_lt_left hw)
  have hsum : (sel.map ((fun p : String × ℚ => p.2)
          ∘ fun t => (t, npClip (1 / (sel.length : ℚ)) minA maxA))).sum
      = (sel.length : ℚ) * npClip (1 / (sel.length : ℚ)) minA maxA := by
    rw [← List.map_map, map_snd_const, List.sum_replicate, nsmul_eq_mul]
  have hsne : (sel.length : ℚ) * npClip (1 / (sel.length : ℚ)) minA maxA ≠ 0 := by positivity
  have hdiv : npClip (1 / (sel.length : ℚ)) minA maxA
        / ((sel.length : ℚ) * npClip (1 / (sel.length : ℚ)) minA maxA)
      = 1 / (sel.length : ℚ) := by
    rw [mul_comm, div_mul_eq_div_div, div_self (ne_of_gt hcpos)]
  simp only [clampNormalize, hsum, if_neg hsne, List.map_map]
  congr 1
  apply List.map_congr_left
  intro t _
  simp only [Function.comp_apply, Prod.mk.injEq, true_and]
  exact hdiv

/-- Sum of the equal final weights over a nonempty ticker list is exactly 1. -/
theorem weights_sum_one (sel : List String) (hne : sel ≠ []) :
    ((sel.map (fun t => (t, 1 / (sel.length : ℚ)))).map (fun p : String × ℚ => p.2)).sum = 1 := by
  have hlen : (sel.length : ℚ) ≠ 0 := by
    exact_mod_cast (List.length_pos.mpr hne).ne'
  rw [map_snd_const, List.sum_replicate, nsmul_eq_mul, mul_one_div_cancel hlen]

/-- C1 counterexample: with N = 2 candidates and bounds (min, max) = (0, 1/4)
— which satisfy 0 ≤ min ≤ max ≤ 1 and min·N ≤ 1 — the AllocationEngine
clamps both equal weights 1/2 down to 1/4, but the renormalization divides
by their sum 1/2 and returns both weights to 1/2, which is outside
[0, 1/4].  The claim that every output weight lies in [min, max] is false. -/
theorem c1_counterexample :
    ((0:ℚ) ≤ 0 ∧ (0:ℚ) ≤ 1/4 ∧ (1/4:ℚ) ≤ 1 ∧ (0:ℚ) * 2 ≤ 1) ∧
    clampNormalize ["A", "B"] 0 (1/4) = some [("A", 1/2), ("B", 1/2)] ∧
    ¬ ((1:ℚ)/2 ≤ 1/4) := by
  refine ⟨by norm_num, ?_, by norm_num⟩
  norm_num [clampNormalize, npClip]

/-- C1 (amended): for a nonempty candidate list of count N with
0 ≤ min ≤ max ≤ 1, min·N ≤ 1 and additionally max > 0, the AllocationEngine
(equal weight 1/N, np.clip into [min, max], renormalize by the clamped sum)
produces weights that sum to exactly 1 and are each exactly 1/N — hence at
least min, but above max whenever 1/N > max (the renormalization undoes the
clamp); when max = 0 the renormalization divides by zero.  The Nodup
hypothesis makes the association-list model agree with the Python dict. -/
theorem c1_amended (sel : List String) (minA maxA : ℚ)
    (hne : sel ≠ []) (hnd : sel.Nodup)
    (h0 : 0 ≤ minA) (h1 : minA ≤ maxA) (h2 : maxA ≤ 1) (h3 : 0 < maxA)
    (hfeas : minA * (sel.length : ℚ) ≤ 1) :
    ∃ tw, clampNormalize sel minA maxA = some tw ∧
      (tw.map (fun p : String × ℚ => p.2)).sum = 1 ∧
      ∀ p ∈ tw, p.2 = 1 / (sel.length : ℚ) ∧ minA ≤ p.2 := by
  have hlenQ : (0 : ℚ) < (sel.length : ℚ) := by
    exact_mod_cast List.length_pos.mpr hne
  refine ⟨_, clampNormalize_eq sel minA maxA hne h3, weights_sum_one sel hne, ?_⟩
  intro p hp
  obtain ⟨t, _, rfl⟩ := List.mem_map.mp hp
  refine ⟨rfl, ?_⟩
  rw [le_div_iff hlenQ]
  simpa using hfeas

/-- Witness for c1_amended at a concrete input. -/
theorem c1_amended_witness :
    ∃ tw, clampNormalize ["A", "B"] 0 (1/2) = some tw ∧
      (tw.map (fun p : String × ℚ => p.2)).sum = 1 ∧
      ∀ p ∈ tw, p.2 = 1 / ((["A", "B"] : List String).length : ℚ) ∧ (0:ℚ) ≤ p.2 :=
  c1_amended ["A", "B"] 0 (1/2) (by decide) (by decide)
    (by norm_num) (by norm_num) (by norm_num) (by norm_num) (by norm_num)

/-- The shrunken ticker list is never empty when the validated bounds
0 ≤ min ≤ 1 hold and the list was nonempty. -/
theorem shrink_ne_nil (sel : List String) (minA : ℚ)
    (hne : sel ≠ []) (h0 : 0 ≤ minA) (h1 : minA ≤ 1) :
    shrinkSelected sel minA ≠ [] := by
  rw [shrinkSelected]
  split_ifs with hgt
  · have hpos : 0 < minA := by
      rcases lt_or_eq_of_le h0 with h | h
      · exact h
      · rw [← h] at hgt; simp at hgt; linarith
    have hfl : (1 : ℤ) ≤ Int.floor (1 / minA) := by
      rw [Int.le_floor]
      rw [show ((1:ℤ):ℚ) = 1 by norm_num, le_div_iff hpos, one_mul]
      exact h1
    intro h
    rcases List.take_eq_nil_iff.mp h with h' | h'
    · omega
    · exact hne h'
  · exact hne

/-- Every ticker of the shrunken list comes from the original list. -/
theorem shrink_subset (sel : List String) (minA : ℚ) :
    ∀ t ∈ shrinkSelected sel minA, t ∈ sel := by
  rw [shrinkSelected]
  split_ifs
  · exact fun t ht => List.take_subset _ _ ht
  · exact fun t ht => ht

/-- C10: whenever the min-allocation shrink branch executes (its condition
min_alloc · N > 1 together with the CLI-validated 0 ≤ min_alloc ≤ 1), the
shrunken count int(1.0 / min_alloc) is at least 1 and the shrunken ticker
list is nonempty, so the "no assets remaining after shrink, go to cash"
branch (lines 235-237) is unreachable. -/
theorem c10_shrink_safety (sel : List String) (minA : ℚ)
    (h0 : 0 ≤ minA) (h1 : minA ≤ 1) (hgt : 1 < minA * (sel.length : ℚ)) :
    1 ≤ (Int.floor (1 / minA)).toNat ∧ shrinkSelected sel minA ≠ [] := by
  have hpos : 0 < minA := by
    rcases lt_or_eq_of_le h0 with h | h
    · exact h
    · rw [← h] at hgt; simp at hgt; linarith
  have hfl : (1 : ℤ) ≤ Int.floor (1 / minA) := by
    rw [Int.le_floor]
    rw [show ((1:ℤ):ℚ) = 1 by norm_num, le_div_iff hpos, one_mul]
    exact h1
  have hne : sel ≠ [] := by
    intro h
    rw [h] at hgt
    simp at hgt
    linarith
  exact ⟨by omega, shrink_ne_nil sel minA hne h0 h1⟩

/-- Witness for c10_shrink_safety at a concrete input. -/
theorem c10_shrink_safety_witness :
    1 ≤ (Int.floor (1 / (3/5 : ℚ))).toNat ∧ shrinkSelected ["A", "B"] (3/5) ≠ [] :=
  c10_shrink_safety ["A", "B"] (3/5) (by norm_num) (by norm_num) (by norm_num)

/-- C4 counterexample: with candidates [A, B] and bounds
(min, max) = (3/5, 7/10), the shrink branch fires (3/5 · 2 > 1) and shrinks
to floor(1/(3/5)) = 1 ticker; the single weight 1 is clamped to 7/10 but
renormalization returns it to 1 > max, so the claim that every weight of
the shrunken allocation lies in [min_bound, max_bound] is false. -/
theorem c4_counterexample :
    ((0:ℚ) ≤ 3/5 ∧ (3/5:ℚ) ≤ 7/10 ∧ (7/10:ℚ) ≤ 1 ∧ (1:ℚ) < (3/5) * 2) ∧
    shrinkSelected ["A", "B"] (3/5) = ["A"] ∧
    clampNormalize ["A"] (3/5) (7/10) = some [("A", 1)] ∧
    ¬ ((1:ℚ) ≤ 7/10) := by
  refine ⟨by norm_num, ?_, ?_, by norm_num⟩
  · norm_num [shrinkSelected]
  · norm_num [clampNormalize, npClip]

/-- C4 (amended): when min_bound · N > 1 (with validated bounds
0 ≤ min ≤ max ≤ 1), the engine shrinks the candidate list to exactly
floor(1 / min_bound) tickers — the take-prefix of the selection order —
and the weights over the shrunken list sum to exactly 1, each equal to
1/floor(1/min_bound) and hence at least min_bound; they can exceed
max_bound (see c4_counterexample), so only the lower bound survives. -/
theorem c4_amended (sel : List String) (minA maxA : ℚ)
    (hnd : sel.Nodup)
    (h0 : 0 ≤ minA) (h1 : minA ≤ maxA) (h2 : maxA ≤ 1)
    (hgt : 1 < minA * (sel.length : ℚ)) :
    shrinkSelected sel minA = sel.take (Int.floor (1 / minA)).toNat ∧
    (shrinkSelected sel minA).length = (Int.floor (1 / minA)).toNat ∧
    1 ≤ (Int.floor (1 / minA)).toNat ∧
    ∃ tw, clampNormalize (shrinkSelected sel minA) minA maxA = some tw ∧
      (tw.map (fun p : String × ℚ => p.2)).sum = 1 ∧
      ∀ p ∈ tw, p.2 = 1 / (((Int.floor (1 / minA)).toNat : ℕ) : ℚ) ∧ minA ≤ p.2 := by
  have hpos : 0 < minA := by
    rcases lt_or_eq_of_le h0 with h | h
    · exact h
    · rw [← h] at hgt; simp at hgt; linarith
  have hmax : 0 < maxA := lt_of_lt_of_le hpos h1
  have hm1 : minA ≤ 1 := le_trans h1 h2
  have hfl : (1 : ℤ) ≤ Int.floor (1 / minA) := by
    rw [Int.le_floor]
    rw [show ((1:ℤ):ℚ) = 1 by norm_num, le_div_iff hpos, one_mul]
    exact hm1
  have hlt : (1 : ℚ) / minA < (sel.length : ℚ) := by
    rw [div_lt_iff hpos]
    linarith [hgt]
  have hflt : Int.floor (1 / minA) < (sel.length : ℤ) := by
    have := Int.floor_le ((1 : ℚ) / minA)
    have : ((Int.floor (1 / minA) : ℤ) : ℚ) < (sel.length : ℚ) := lt_of_le_of_lt this hlt
    exact_mod_cast this
  have hMle : (Int.floor (1 / minA)).toNat ≤ sel.length := by omega
  have hshr : shrinkSelected sel minA = sel.take (Int.floor (1 / minA)).toNat := by
    rw [shrinkSelected, if_pos hgt]
  have hlen : (shrinkSelected sel minA).length = (Int.floor (1 / minA)).toNat := by
    rw [hshr, List.length_take, min_eq_left hMle]
  have hneSel : sel ≠ [] := by
    intro h
    rw [h] at hgt
    simp at hgt
    linarith
  have hne1 : shrinkSelected sel minA ≠ [] := by
    rw [hshr]
    intro h
    rcases List.take_eq_nil_iff.mp h with h' | h'
    · omega
    · exact hneSel h'
  have hcast : (((Int.floor (1 / minA)).toNat : ℕ) : ℚ)
      = ((Int.floor (1 / minA) : ℤ) : ℚ) := by
    exact_mod_cast Int.toNat_of_nonneg (by omega : (0:ℤ) ≤ Int.floor (1 / minA))
  have hMQ : (((Int.floor (1 / minA)).toNat : ℕ) : ℚ) ≤ 1 / minA := by
    rw [hcast]
    exact Int.floor_le _
  have hMpos : (0 : ℚ) < (((Int.floor (1 / minA)).toNat : ℕ) : ℚ) := by
    have h' : 1 ≤ (Int.floor (1 / minA)).toNat := by omega
    exact_mod_cast h'
  refine ⟨hshr, hlen, by omega,
    (shrinkSelected sel minA).map (fun t => (t, 1 / ((shrinkSelected sel minA).length : ℚ))),
    clampNormalize_eq _ minA maxA hne1 hmax, weights_sum_one _ hne1, ?_⟩
  intro p hp
  obtain ⟨t, _, rfl⟩ := List.mem_map.mp hp
  constructor
  · rw [hlen]
  · rw [hlen]
    rw [le_div_iff hMpos]
    calc minA * (((Int.floor (1 / minA)).toNat : ℕ) : ℚ)
        ≤ minA * (1 / minA) := mul_le_mul_of_nonneg_left hMQ (le_of_lt hpos)
      _ = 1 := mul_one_div_cancel (ne_of_gt hpos)

/-- Witness for c4_amended at a concrete input. -/
theorem c4_amended_witness :
    shrinkSelected ["A", "B"] (3/5) = (["A", "B"] : List String).take (Int.floor (1 / (3/5:ℚ))).toNat ∧
    (shrinkSelected ["A", "B"] (3/5)).length = (Int.floor (1 / (3/5:ℚ))).toNat ∧
    1 ≤ (Int.floor (1 / (3/5:ℚ))).toNat ∧
    ∃ tw, clampNormalize (shrinkSelected ["A", "B"] (3/5)) (3/5) (7/10) = some tw ∧
      (tw.map (fun p : String × ℚ => p.2)).sum = 1 ∧
      ∀ p ∈ tw, p.2 = 1 / (((Int.floor (1 / (3/5:ℚ))).toNat : ℕ) : ℚ) ∧ (3/5:ℚ) ≤ p.2 :=
  c4_amended ["A", "B"] (3/5) (7/10) (by decide)
    (by norm_num) (by norm_num) (by norm_num) (by norm_num)

/-- Characterization of membership in the scheduler output: exactly the
on-offset dates inside [start, end]. -/
theorem mem_rebalance_dates_iff (s e : ℕ) (f : Frequency) (d : ℕ) :
    d ∈ get_rebalance_dates s e f ↔ (s ≤ d ∧ d ≤ e ∧ isPeriodStart f d = true) := by
  simp only [get_rebalance_dates, List.mem_filter, decide_eq_true_eq, List.mem_map,
    List.mem_range]
  constructor
  · rintro ⟨⟨⟨⟨k, hk, rfl⟩, hp⟩, h1⟩, h2⟩
    exact ⟨by omega, h2, hp⟩
  · rintro ⟨h1, h2, hp⟩
    exact ⟨⟨⟨⟨d - s, by omega, by omega⟩, hp⟩, h1⟩, h2⟩

/-- The scheduler output is strictly increasing. -/
theorem rebalance_dates_sorted (s e : ℕ) (f : Frequency) :
    (get_rebalance_dates s e f).Pairwise (· < ·) := by
  have h0 : ((List.range (e + 1 - s)).map (fun k => s + k)).Pairwise (· < ·) := by
    refine List.Pairwise.map _ ?_ (List.pairwise_lt_range _)
    intro a b hab
    omega
  exact ((h0.filter _).filter _).filter _

/-- The scheduler output is empty exactly when no on-offset date falls in
[start, end]. -/
theorem rebalance_dates_nil_iff (s e : ℕ) (f : Frequency) :
    get_rebalance_dates s e f = [] ↔ ∀ d, s ≤ d → d ≤ e → isPeriodStart f d = false := by
  rw [List.eq_nil_iff_forall_not_mem]
  constructor
  · intro h d h1 h2
    by_contra hp
    exact h d ((mem_rebalance_dates_iff s e f d).mpr
      ⟨h1, h2, by simpa using hp⟩)
  · intro h d hd
    obtain ⟨h1, h2, hp⟩ := (mem_rebalance_dates_iff s e f d).mp hd
    rw [h d h1 h2] at hp
    exact Bool.false_ne_true hp

/-- C8: for every start date, end date and frequency in
{monthly, quarterly, annually}, get_rebalance_dates returns only dates in
[start, end], strictly increasing, and returns the empty sequence exactly
when no period-start (first business day of month / quarter / year) falls
inside the range. -/
theorem c8_scheduler (s e : ℕ) (f : Frequency) :
    (∀ d ∈ get_rebalance_dates s e f, s ≤ d ∧ d ≤ e) ∧
    (get_rebalance_dates s e f).Pairwise (· < ·) ∧
    (get_rebalance_dates s e f = []
      ↔ ∀ d, s ≤ d → d ≤ e → isPeriodStart f d = false) := by
  refine ⟨?_, rebalance_dates_sorted s e f, rebalance_dates_nil_iff s e f⟩
  intro d hd
  obtain ⟨h1, h2, _⟩ := (mem_rebalance_dates_iff s e f d).mp hd
  exact ⟨h1, h2⟩

/-- Witness for c8_scheduler: start = end = day 2 (1970-01-03, a Saturday),
where no period start falls in range, so the schedule is empty. -/
theorem c8_scheduler_witness : get_rebalance_dates 2 2 Frequency.monthly = [] :=
  (c8_scheduler 2 2 Frequency.monthly).2.2.mpr (by
    intro d h1 h2
    have hd : d = 2 := le_antisymm h2 h1
    subst hd
    decide)

/-!  Asset selection (backtest_script.py lines 180-204).

An AssetRecord is one row of the scored fundamentals dataframe: the external
scoring collaborators (calcular_piotroski_f_score_br and
calcular_value_composite_score) produce the Piotroski_F_Score and
Quant_Value_Score columns, so records arrive already scored.

df.sort_values(by="Quant_Value_Score", ascending=False) is implemented by
pandas nargsort as: reverse the values, argsort ascending with the default
kind='quicksort', index, and reverse the resulting indexer.  numpy's
quicksort is an introsort whose partition loop only runs while more than
SMALL_QUICKSORT = 15 elements remain, so an array of at most 16 elements is
sorted entirely by its final insertion-sort pass, which is stable; over
lists of rows the composite is then (sortAsc l.reverse).reverse with
sortAsc a stable ascending insertion sort.  For larger arrays partitioning
reorders tied keys in an undocumented way (numpy documents quicksort as not
stable), so there the sorted order is an oracle parameter of the model,
constrained only by what any sort guarantees.
-/

structure AssetRecord where
  ticker : String
  fscore : ℤ
  qvs : ℚ
deriving DecidableEq

/-- Stable ascending insertion: a lands before the first element it is ≤. -/
def insertAsc (a : AssetRecord) : List AssetRecord → List AssetRecord
  | [] => [a]
  | b :: l => if a.qvs ≤ b.qvs then a :: b :: l else b :: insertAsc a l

/-- Stable ascending insertion sort by Quant_Value_Score. -/
def sortAsc : List AssetRecord → List AssetRecord
  | [] => []
  | a :: l => insertAsc a (sortAsc l)

/-- pandas sort_values(ascending=False) with the default kind='quicksort':
the nargsort double-reversal around a numpy argsort.  At or below numpy's
16-element insertion-sort threshold the argsort is stable, giving the
reverse/stable-ascending-sort/reverse composite; above it the tie order is
an implementation detail of numpy's unstable introsort, modelled by the
oracle big (any descending-sorted permutation of the input). -/
def pandasSortDesc (big : List AssetRecord → List AssetRecord)
    (l : List AssetRecord) : List AssetRecord :=
  if l.length ≤ 16 then (sortAsc l.reverse).reverse else big l

/-- Ascending insertion placing a after every tied element (used to describe
what appending an element at the end of the unsorted input does to the
stable ascending sort). -/
def insertAscLast (a : AssetRecord) : List AssetRecord → List AssetRecord
  | [] => [a]
  | b :: l => if a.qvs < b.qvs then a :: b :: l else b :: insertAscLast a l

/-- Stable descending insertion: a lands before the first element it is ≥,
so earlier-inserted (later provider order) tied elements stay behind it. -/
def insertDesc (a : AssetRecord) : List AssetRecord → List AssetRecord
  | [] => [a]
  | b :: l => if b.qvs ≤ a.qvs then a :: b :: l else b :: insertDesc a l

/-- Stable descending insertion sort by Quant_Value_Score: the sort the
spec describes (value score descending, ties in provider order). -/
def sortDesc : List AssetRecord → List AssetRecord
  | [] => []
  | a :: l => insertDesc a (sortDesc l)

/-- The two insertion modes commute. -/
theorem insertAsc_insertAscLast (x y : AssetRecord) :
    ∀ s : List AssetRecord,
      insertAsc y (insertAscLast x s) = insertAscLast x (insertAsc y s) := by
  intro s
  induction s with
  | nil =>
    by_cases h : y.qvs ≤ x.qvs
    · simp [insertAsc, insertAscLast, h, not_lt.mpr h]
    · simp [insertAsc, insertAscLast, h, not_le.mp h]
  | cons b s ih =>
    by_cases hxb : x.qvs < b.qvs
    · by_cases hyx : y.qvs ≤ x.qvs
      · have hyb : y.qvs ≤ b.qvs := le_of_lt (lt_of_le_of_lt hyx hxb)
        simp [insertAsc, insertAscLast, hxb, hyx, hyb, not_lt.mpr hyx]
      · have hxy : x.qvs < y.qvs := not_le.mp hyx
        by_cases hyb : y.qvs ≤ b.qvs
        · simp [insertAsc, insertAscLast, hxb, hyx, hyb, hxy]
        · simp [insertAsc, insertAscLast, hxb, hyx, hyb, hxy]
    · have hbx : b.qvs ≤ x.qvs := not_lt.mp hxb
      by_cases hyb : y.qvs ≤ b.qvs
      · have hnxy : ¬ x.qvs < y.qvs := not_lt.mpr (le_trans hyb hbx)
        simp [insertAsc, insertAscLast, hxb, hyb, hnxy]
      · simp [insertAsc, insertAscLast, hxb, hyb, ih]

/-- Appending an element to the input of the stable ascending sort inserts
it after all its ties. -/
theorem sortAsc_append (x : AssetRecord) :
    ∀ s : List AssetRecord, sortAsc (s ++ [x]) = insertAscLast x (sortAsc s) := by
  intro s
  induction s with
  | nil => simp [sortAsc, insertAsc, insertAscLast]
  | cons y s ih => simp [sortAsc, ih, insertAsc_insertAscLast]

/-- Membership through insertAsc. -/
theorem mem_insertAsc (a c : AssetRecord) :
    ∀ s : List AssetRecord, c ∈ insertAsc a s ↔ c = a ∨ c ∈ s := by
  intro s
  induction s with
  | nil => simp [insertAsc]
  | cons b l ih =>
    by_cases h : a.qvs ≤ b.qvs
    · simp [insertAsc, h]
    · simp [insertAsc, h, ih]
      tauto

/-- insertAsc preserves ascending sortedness. -/
theorem insertAsc_pairwise (a : AssetRecord) :
    ∀ s : List AssetRecord,
      s.Pairwise (fun u v : AssetRecord => u.qvs ≤ v.qvs) →
      (insertAsc a s).Pairwise (fun u v : AssetRecord => u.qvs ≤ v.qvs) := by
  intro s
  induction s with
  | nil => simp [insertAsc]
  | cons b l ih =>
    intro hp
    rw [List.pairwise_cons] at hp
    obtain ⟨hb, hl⟩ := hp
    by_cases h : a.qvs ≤ b.qvs
    · rw [insertAsc, if_pos h, List.pairwise_cons]
      refine ⟨?_, List.pairwise_cons.mpr ⟨hb, hl⟩⟩
      intro c hc
      rcases List.mem_cons.mp hc with rfl | hc
      · exact h
      · exact le_trans h (hb c hc)
    · rw [insertAsc, if_neg h, List.pairwise_cons]
      refine ⟨?_, ih hl⟩
      intro c hc
      rcases (mem_insertAsc a c l).mp hc with rfl | hc
      · exact le_of_lt (not_le.mp h)
      · exact hb c hc

/-- The stable ascending sort is ascending-sorted. -/
theorem sortAsc_pairwise :
    ∀ l : List AssetRecord,
      (sortAsc l).Pairwise (fun u v : AssetRecord => u.qvs ≤ v.qvs) := by
  intro l
  induction l with
  | nil => simp [sortAsc]
  | cons a l ih => exact insertAsc_pairwise a (sortAsc l) ih

/-- insertDesc passes over a prefix of strictly larger elements. -/
theorem insertDesc_append_of_lt (x : AssetRecord) :
    ∀ (L M : List AssetRecord), (∀ e ∈ L, x.qvs < e.qvs) →
      insertDesc x (L ++ M) = L ++ insertDesc x M := by
  intro L
  induction L with
  | nil => intro M _; rfl
  | cons a L' ih =>
    intro M hL
    have ha : ¬ a.qvs ≤ x.qvs := not_le.mpr (hL a (List.mem_cons_self a L'))
    simp only [List.cons_append, insertDesc, if_neg ha, List.append_eq]
    rw [ih M (fun e he => hL e (List.mem_cons_of_mem a he))]

/-- insertDesc commutes with appending a final element that is ≤ the
inserted one. -/
theorem insertDesc_append_singleton (x b : AssetRecord) (hbx : b.qvs ≤ x.qvs) :
    ∀ M : List AssetRecord, insertDesc x (M ++ [b]) = insertDesc x M ++ [b] := by
  intro M
  induction M with
  | nil => simp [insertDesc, hbx]
  | cons a M' ih =>
    by_cases h : a.qvs ≤ x.qvs
    · simp [insertDesc, h]
    · simp [insertDesc, h, ih]

/-- Reversing an after-ties ascending insertion into a sorted list is a
stable descending insertion into the reversed list. -/
theorem insertAscLast_reverse (x : AssetRecord) :
    ∀ s : List AssetRecord,
      s.Pairwise (fun u v : AssetRecord => u.qvs ≤ v.qvs) →
      (insertAscLast x s).reverse = insertDesc x s.reverse := by
  intro s
  induction s with
  | nil => simp [insertAscLast, insertDesc]
  | cons b s ih =>
    intro hp
    rw [List.pairwise_cons] at hp
    obtain ⟨hb, hs⟩ := hp
    by_cases hxb : x.qvs < b.qvs
    · rw [insertAscLast, if_pos hxb]
      have hL : ∀ e ∈ s.reverse, x.qvs < e.qvs := by
        intro e he
        exact lt_of_lt_of_le hxb (hb e (List.mem_reverse.mp he))
      rw [List.reverse_cons, List.reverse_cons,
        insertDesc_append_of_lt x s.reverse [b] hL]
      simp [insertDesc, not_le.mpr hxb]
    · rw [insertAscLast, if_neg hxb, List.reverse_cons, List.reverse_cons,
        insertDesc_append_singleton x b (not_lt.mp hxb) s.reverse, ih hs]

/-- The double-reversal around the stable ascending sort equals the stable
descending insertion sort: value score descending, ties kept in original
(provider) order. -/
theorem revSortRev_eq_sortDesc :
    ∀ l : List AssetRecord, (sortAsc l.reverse).reverse = sortDesc l := by
  intro l
  induction l with
  | nil => rfl
  | cons x t ih =>
    rw [List.reverse_cons, sortAsc_append, insertAscLast_reverse x _ (sortAsc_pairwise _)]
    show insertDesc x ((sortAsc t.reverse).reverse) = _
    rw [ih]
    rfl

/-- At or below numpy's insertion-sort threshold the pandas descending sort
is the stable descending sort, whatever the large-array oracle is. -/
theorem pandasSortDesc_eq_small (big : List AssetRecord → List AssetRecord)
    (l : List AssetRecord) (h : l.length ≤ 16) :
    pandasSortDesc big l = sortDesc l := by
  rw [pandasSortDesc, if_pos h]
  exact revSortRev_eq_sortDesc l

/-- Score filters of the selector (lines 192-196): the quality filter is
applied only when min_piotroski_score > 0, the value filter only when
min_quant_value_score > 0.0; both keep rows with score ≥ the minimum. -/
def filterByScores (minP : ℤ) (minV : ℚ) (l : List AssetRecord) : List AssetRecord :=
  let l1 := if 0 < minP then l.filter (fun r => minP ≤ r.fscore) else l
  if 0 < minV then l1.filter (fun r => minV ≤ r.qvs) else l1

/-- pandas DataFrame.head: the first n rows for n ≥ 0, and all but the last
|n| rows for n < 0. -/
def pandasHead (n : ℤ) (l : List AssetRecord) : List AssetRecord :=
  if 0 ≤ n then l.take n.toNat else l.take (l.length - (-n).toNat)

/-- The full AssetSelector (lines 192-204): filter by scores, sort by
Quant_Value_Score descending (pandas sort_values, with big the large-array
tie-order oracle), head(top_n) when top_n_quant_value > 0,
head(max_selected_assets), project tickers. -/
def selectAssets (big : List AssetRecord → List AssetRecord)
    (minP : ℤ) (minV : ℚ) (topN maxAssets : ℤ) (l : List AssetRecord) :
    List String :=
  let elig := filterByScores minP minV l
  let sorted := pandasSortDesc big elig
  let top := if 0 < topN then pandasHead topN sorted else sorted
  (pandasHead maxAssets top).map (fun r => r.ticker)

/-- The selector exactly as the C3 claim words it: drop quality scores below
min (skipped when min = 0), drop value scores below min (skipped when
min = 0.0), stable sort by value score descending (ties in provider order),
truncate to top-N when top-N > 0, then truncate to max assets. -/
def specSelectAssets (minP : ℤ) (minV : ℚ) (topN maxAssets : ℤ) (l : List AssetRecord) :
    List String :=
  let l1 := if minP = 0 then l else l.filter (fun r => minP ≤ r.fscore)
  let l2 := if minV = 0 then l1 else l1.filter (fun r => minV ≤ r.qvs)
  let sorted := sortDesc l2
  let top := if 0 < topN then sorted.take topN.toNat else sorted
  (top.take maxAssets.toNat).map (fun r => r.ticker)

/-- The code's filter stage (applied when the minimum is > 0) agrees with
the claim's wording (skipped when the minimum is 0) for the nonnegative
minima the claim describes. -/
theorem filterByScores_eq (minP : ℤ) (minV : ℚ) (l : List AssetRecord)
    (hP : 0 ≤ minP) (hV : 0 ≤ minV) :
    filterByScores minP minV l
      = (if minV = 0 then (if minP = 0 then l else l.filter (fun r => minP ≤ r.fscore))
         else (if minP = 0 then l
               else l.filter (fun r => minP ≤ r.fscore)).filter (fun r => minV ≤ r.qvs)) := by
  simp only [filterByScores]
  rcases lt_or_eq_of_le hP with hp | hp
  · have hp' : ¬ minP = 0 := by omega
    rcases lt_or_eq_of_le hV with hv | hv
    · have hv' : ¬ minV = 0 := ne_of_gt hv
      simp only [if_pos hp, if_pos hv, if_neg hv', if_neg hp']
    · have hv0 : minV = 0 := hv.symm
      have hvn : ¬ 0 < minV := by rw [← hv]; exact lt_irrefl 0
      simp only [if_pos hp, if_neg hvn, if_pos hv0, if_neg hp']
  · have hp0 : minP = 0 := hp.symm
    have hpn : ¬ 0 < minP := by omega
    rcases lt_or_eq_of_le hV with hv | hv
    · have hv' : ¬ minV = 0 := ne_of_gt hv
      simp only [if_neg hpn, if_pos hv, if_neg hv', if_pos hp0]
    · have hv0 : minV = 0 := hv.symm
      have hvn : ¬ 0 < minV := by rw [← hv]; exact lt_irrefl 0
      simp only [if_neg hpn, if_neg hvn, if_pos hv0, if_pos hp0]

/-- Seventeen records tied on value score: one more than numpy's
insertion-sort threshold, so sort_values reaches the unstable partitioning
path of numpy's quicksort. -/
def tiedRecords : List AssetRecord :=
  [⟨"T01", 0, 0⟩, ⟨"T02", 0, 0⟩, ⟨"T03", 0, 0⟩, ⟨"T04", 0, 0⟩, ⟨"T05", 0, 0⟩,
   ⟨"T06", 0, 0⟩, ⟨"T07", 0, 0⟩, ⟨"T08", 0, 0⟩, ⟨"T09", 0, 0⟩, ⟨"T10", 0, 0⟩,
   ⟨"T11", 0, 0⟩, ⟨"T12", 0, 0⟩, ⟨"T13", 0, 0⟩, ⟨"T14", 0, 0⟩, ⟨"T15", 0, 0⟩,
   ⟨"T16", 0, 0⟩, ⟨"T17", 0, 0⟩]

/-- C3 counterexample: the claim's tie-stability is not a guarantee of the
program.  On 17 all-tied records — past numpy's 16-element insertion-sort
threshold, where the quicksort kind is documented as not stable and the
tie order is an implementation detail — there is an admissible sort result
(a descending-sorted permutation of the eligible records, here their
reversal) under which the AssetSelector output differs from the claim's
stable pipeline.  The claim as stated, quantified over every scored asset
sequence, therefore does not hold of the modelled program, whose large-sort
tie order is exactly as unspecified as numpy's. -/
theorem c3_counterexample :
    tiedRecords.length = 17 ∧
    (pandasSortDesc (fun l => l.reverse) tiedRecords).Perm tiedRecords ∧
    (pandasSortDesc (fun l => l.reverse) tiedRecords).Pairwise
      (fun a b : AssetRecord => b.qvs ≤ a.qvs) ∧
    selectAssets (fun l => l.reverse) 0 0 0 20 tiedRecords
      ≠ specSelectAssets 0 0 0 20 tiedRecords := by
  have hbig : pandasSortDesc (fun l => l.reverse) tiedRecords = tiedRecords.reverse := by
    rw [pandasSortDesc, if_neg (by decide)]
  refine ⟨by decide, ?_, ?_, by decide⟩
  · rw [hbig]
    exact tiedRecords.reverse_perm
  · rw [hbig]
    decide

/-- C3 (amended): for every scored asset sequence whose eligible set (after
the score filters) has at most 16 records — numpy's insertion-sort
threshold, below which the default quicksort kind is stable — and for
nonnegative filters, the AssetSelector output equals the claim's pipeline:
drop quality scores below min (skipped when min = 0), drop value scores
below min (skipped when min = 0.0), sort by value score descending with
ties broken by original provider order, truncate to top-N when top-N > 0,
then truncate to max assets.  Above the threshold only the descending order
and the membership are guaranteed, not the tie order; the result holds for
every large-array tie-order oracle because that branch is never taken. -/
theorem c3_amended (big : List AssetRecord → List AssetRecord)
    (minP : ℤ) (minV : ℚ) (topN maxAssets : ℤ) (l : List AssetRecord)
    (hP : 0 ≤ minP) (hV : 0 ≤ minV) (hM : 0 ≤ maxAssets)
    (hsize : (filterByScores minP minV l).length ≤ 16) :
    selectAssets big minP minV topN maxAssets l
      = specSelectAssets minP minV topN maxAssets l := by
  have hsort := pandasSortDesc_eq_small big (filterByScores minP minV l) hsize
  simp only [selectAssets, specSelectAssets]
  rw [← filterByScores_eq minP minV l hP hV, hsort]
  by_cases ht : 0 < topN
  · rw [if_pos ht, if_pos ht]
    simp [pandasHead, le_of_lt ht, hM]
  · rw [if_neg ht, if_neg ht]
    simp [pandasHead, hM]

/-- Witness for c3_amended: three records (within the threshold) with a
value-score tie between the first two; the selector keeps them in provider
order behind the higher score. -/
theorem c3_amended_witness :
    selectAssets (fun l => l) 1 0 0 10
        [⟨"A", 5, 1⟩, ⟨"B", 5, 1⟩, ⟨"C", 5, 2⟩]
      = specSelectAssets 1 0 0 10
        [⟨"A", 5, 1⟩, ⟨"B", 5, 1⟩, ⟨"C", 5, 2⟩] :=
  c3_amended (fun l => l) 1 0 0 10 _ (by norm_num) (by norm_num) (by norm_num) (by decide)

/-!  Trade execution (backtest_script.py lines 249-297) and daily portfolio
simulation (lines 299-382).

The yfinance price fetch at a rebalance date (lines 257-266) is reduced by
the script to one price per selected ticker: the first valid value of each
column after ffill().bfill().iloc[0], null when the column has no data.
It is therefore modelled as a lookup String → Option ℚ; the branch guard
"df.empty or df.isnull().all().all()" holds exactly when every selected
ticker's lookup is none.
-/

structure Holding where
  shares : ℚ
  price_at_buy : ℚ
  weight : ℚ
deriving DecidableEq

/-- One history row's per-ticker detail: a rebalance-copied holding has keys
{shares, price_at_buy, weight}, while a freshly valued day logs
{shares, current_price, value} (lines 330, 347, 372); the price fallback at
line 354 only fires on entries that carry a current_price key. -/
inductive SnapEntry where
  | fromHolding : Holding → SnapEntry
  | computed : ℚ → ℚ → ℚ → SnapEntry
deriving DecidableEq

structure Snapshot where
  date : ℕ
  portfolio_value : ℚ
  holdings : List (String × SnapEntry)
deriving DecidableEq

/-- Portfolio state carried across rebalances: total value and the current
holdings dict. -/
structure PState where
  value : ℚ
  holdings : List (String × Holding)
deriving DecidableEq

/-- Build new_holdings (lines 284-293): for each (ticker, weight) with an
available price, shares = value * weight / price, recording entry price and
weight; tickers still without a price are skipped. -/
def buildHoldings (V : ℚ) (tw : List (String × ℚ)) (priceOf : String → Option ℚ) :
    List (String × Holding) :=
  tw.filterMap (fun p =>
    match priceOf p.1 with
    | some pr => some (p.1, ⟨V * p.2 / pr, pr, p.2⟩)
    | none => none)

/-- One full rebalance of the holdings (lines 229-297): shrink for the
min-allocation floor, go to cash if nothing remains, compute target weights,
keep the prior holdings when the price fetch yields no usable prices at all,
drop unpriced tickers and recompute weights over the rest (empty result goes
to cash), then replace the holdings wholesale.  none models the
ZeroDivisionError of the weight normalization. -/
def rebalanceHoldings (minA maxA V : ℚ) (prior : List (String × Holding))
    (sel0 : List String) (priceOf : String → Option ℚ) :
    Option (List (String × Holding)) :=
  let sel1 := shrinkSelected sel0 minA
  if sel1 = [] then some []
  else
    match clampNormalize sel1 minA maxA with
    | none => none
    | some tw =>
      if tw = [] then some []
      else if sel1.all (fun t => (priceOf t).isNone) then some prior
      else
        let missing := sel1.filter (fun t => (priceOf t).isNone)
        let sel2 := sel1.filter (fun t => (priceOf t).isSome)
        match (if missing = [] then some tw
               else if sel2 = [] then some ([] : List (String × ℚ))
               else clampNormalize sel2 minA maxA) with
        | none => none
        | some tw2 =>
          if tw2 = [] then some []
          else some (buildHoldings V tw2 priceOf)

/-- The rebalance step on the whole portfolio state: the script never
touches current_portfolio_value while rebalancing, so the value field is
carried through unchanged. -/
def rebalanceState (minA maxA : ℚ) (st : PState) (sel0 : List String)
    (priceOf : String → Option ℚ) : Option PState :=
  (rebalanceHoldings minA maxA st.value st.holdings sel0 priceOf).map
    (fun h => ⟨st.value, h⟩)

/-- Holdings as they are copied into a history row (current_holdings.copy()). -/
def snapHoldings (hs : List (String × Holding)) : List (String × SnapEntry) :=
  hs.map (fun p => (p.1, SnapEntry.fromHolding p.2))

/-- Forward fill (daily_prices_df.ffill(), line 318): the value of column t
at row d is the last non-null raw value at an index entry ≤ d (the index is
sorted ascending). -/
def ffillAt (idx : List ℕ) (raw : ℕ → String → Option ℚ) (d : ℕ) (t : String) : Option ℚ :=
  (idx.filter (fun e => e ≤ d)).foldl
    (fun acc e => match raw e t with | some p => some p | none => acc) none

/-- Fallback price from the last recorded snapshot (lines 354-357): only
entries of computed shape carry a current_price key.  The history is kept
most-recent-first, so the head is portfolio_history[-1]. -/
def lastKnownPrice (hist : List Snapshot) (t : String) : Option ℚ :=
  match hist with
  | [] => none
  | s :: _ =>
    match s.holdings.lookup t with
    | some (SnapEntry.computed _ p _) => some p
    | _ => none

/-- Value the holdings for one day (lines 340-361): sum shares × price over
the holdings, falling back per ticker to the last snapshot's recorded price;
a ticker with neither price breaks the loop and invalidates the whole day
(none). -/
def dayValue (hist : List Snapshot) (priceAt : String → Option ℚ) :
    List (String × Holding) → Option (ℚ × List (String × SnapEntry))
  | [] => some (0, [])
  | (t, h) :: rest =>
    match priceAt t with
    | some p =>
      match dayValue hist priceAt rest with
      | some vl => some (h.shares * p + vl.1,
          (t, SnapEntry.computed h.shares p (h.shares * p)) :: vl.2)
      | none => none
    | none =>
      match lastKnownPrice hist t with
      | some p =>
        match dayValue hist priceAt rest with
        | some vl => some (h.shares * p + vl.1,
            (t, SnapEntry.computed h.shares p (h.shares * p)) :: vl.2)
        | none => none
      | none => none

/-- Simulation state: history rows (most recent first), running
current_portfolio_value, and the current holdings. -/
structure SimState where
  hist : List Snapshot
  value : ℚ
  holdings : List (String × Holding)
deriving DecidableEq

/-- One business day of the simulation loop (lines 321-380).  Cash state
appends the unchanged value (lines 374-380).  A date absent from the price
index appends the last recorded value — only when the last recorded date is
older, or the history is empty (lines 322-338).  Otherwise the day is valued
from prices with per-ticker fallback; an unreliable day copies the previous
day's total (lines 340-373). -/
def simDay (idx : List ℕ) (raw : ℕ → String → Option ℚ) (st : SimState) (d : ℕ) : SimState :=
  if st.holdings = [] then
    ⟨⟨d, st.value, []⟩ :: st.hist, st.value, st.holdings⟩
  else if d ∈ idx then
    match dayValue st.hist (ffillAt idx raw d) st.holdings with
    | some vl => ⟨⟨d, vl.1, vl.2⟩ :: st.hist, vl.1, st.holdings⟩
    | none =>
      match st.hist with
      | s :: _ =>
        ⟨⟨d, s.portfolio_value, snapHoldings st.holdings⟩ :: st.hist,
          s.portfolio_value, st.holdings⟩
      | [] => ⟨⟨d, st.value, snapHoldings st.holdings⟩ :: st.hist, st.value, st.holdings⟩
  else
    match st.hist with
    | s :: _ =>
      if s.date < d then
        ⟨⟨d, s.portfolio_value, snapHoldings st.holdings⟩ :: st.hist, st.value, st.holdings⟩
      else st
    | [] => ⟨⟨d, st.value, snapHoldings st.holdings⟩ :: st.hist, st.value, st.holdings⟩

/-- pd.date_range(a, b, freq=B): the business days inside [a, b]. -/
def businessDays (a b : ℕ) : List ℕ :=
  ((List.range (b + 1 - a)).map (fun k => a + k)).filter (fun d => isBusinessDay d)

/-- Simulate one holding period over its business days. -/
def simPeriod (idx : List ℕ) (raw : ℕ → String → Option ℚ) (days : List ℕ)
    (st : SimState) : SimState :=
  days.foldl (simDay idx raw) st

/-- End of the simulation window for the current rebalance: one day before
the next rebalance date, or the backtest end date for the last one
(lines 300-304). -/
def nextEnd (endD : ℕ) : List ℕ → ℕ
  | [] => endD
  | r2 :: _ => r2 - 1

/-- The fundamentals-empty branch (lines 164-174): append one snapshot at
the rebalance date when holdings exist, then skip to the next rebalance. -/
def skipState (r : ℕ) (st : SimState) : SimState :=
  if st.holdings = [] then st
  else ⟨⟨r, st.value, snapHoldings st.holdings⟩ :: st.hist, st.value, st.holdings⟩

/-- Selection filter and allocation parameters of a run. -/
structure Params where
  minP : ℤ
  minV : ℚ
  topN : ℤ
  maxAssets : ℤ
  minA : ℚ
  maxA : ℚ
  initV : ℚ

/-- The main rebalance loop (lines 149-382) over the scheduled dates.
Oracles: fund gives the scored fundamentals rows per rebalance date (empty
list = empty dataframe), entry the per-ticker entry price lookup per
rebalance date, didx and draw the index and raw cells of the daily price
dataframe fetched for the period starting at a given rebalance date.
An empty selection leaves the holdings untouched (lines 206-210); the
simulation step always runs. -/
def runAux (endD : ℕ) (p : Params) (big : List AssetRecord → List AssetRecord)
    (fund : ℕ → List AssetRecord)
    (entry : ℕ → String → Option ℚ) (didx : ℕ → List ℕ)
    (draw : ℕ → ℕ → String → Option ℚ) : List ℕ → SimState → Option SimState
  | [], st => some st
  | r :: rest, st =>
    if fund r = [] then
      runAux endD p big fund entry didx draw rest (skipState r st)
    else
      let sel0 := selectAssets big p.minP p.minV p.topN p.maxAssets (fund r)
      match (if sel0 = [] then some st.holdings
             else rebalanceHoldings p.minA p.maxA st.value st.holdings sel0 (entry r)) with
      | none => none
      | some h =>
        runAux endD p big fund entry didx draw rest
          (simPeriod (didx r) (draw r) (businessDays r (nextEnd endD rest))
            ⟨st.hist, st.value, h⟩)

/-- The whole backtest (run_backtest): schedule the rebalance dates, return
an empty history when there are none (lines 136-138), else run the loop
from the initial value with empty holdings and emit the history rows in
chronological order. -/
def run_backtest (startD endD : ℕ) (freq : Frequency) (p : Params)
    (big : List AssetRecord → List AssetRecord)
    (fund : ℕ → List AssetRecord) (entry : ℕ → String → Option ℚ)
    (didx : ℕ → List ℕ) (draw : ℕ → ℕ → String → Option ℚ) :
    Option (List Snapshot) :=
  let dates := get_rebalance_dates startD endD freq
  if dates = [] then some []
  else (runAux endD p big fund entry didx draw dates ⟨[], p.initV, []⟩).map
    (fun st => st.hist.reverse)

/-- Unfolding buildHoldings over a priced head. -/
theorem buildHoldings_cons_some (V : ℚ) (priceOf : String → Option ℚ)
    (t : String) (w pr : ℚ) (rest : List (String × ℚ)) (hpr : priceOf t = some pr) :
    buildHoldings V ((t, w) :: rest) priceOf
      = (t, ⟨V * w / pr, pr, w⟩) :: buildHoldings V rest priceOf := by
  simp [buildHoldings, List.filterMap_cons, hpr]

/-- The invested cash of the built holdings: sum of shares × entry price
equals the total value times the sum of the weights, as long as every
weight's ticker has a nonzero price. -/
theorem buildHoldings_sum (V : ℚ) (priceOf : String → Option ℚ) :
    ∀ tw : List (String × ℚ),
      (∀ p ∈ tw, ∃ pr, priceOf p.1 = some pr ∧ pr ≠ 0) →
      ((buildHoldings V tw priceOf).map (fun q => q.2.shares * q.2.price_at_buy)).sum
        = V * (tw.map (fun p : String × ℚ => p.2)).sum := by
  intro tw
  induction tw with
  | nil => simp [buildHoldings]
  | cons p rest ih =>
    intro hp
    obtain ⟨pr, hpr, hprne⟩ := hp p (List.mem_cons_self p rest)
    have hrest := ih (fun q hq => hp q (List.mem_cons_of_mem p hq))
    rw [show p = (p.1, p.2) from rfl, buildHoldings_cons_some V priceOf p.1 p.2 pr rest hpr]
    simp only [List.map_cons, List.sum_cons, hrest]
    rw [div_mul_cancel₀ _ hprne]
    ring

/-- C5: for every total value V and target weight mapping summing to 1 with
a (nonzero) price available for each ticker, the TradeExecutor produces
holdings whose shares × entry price sum to exactly V, and a rebalance never
changes the portfolio's total value (the script does not touch
current_portfolio_value while rebalancing).  The Nodup hypothesis makes the
association-list model agree with the Python dict. -/
theorem c5_round_trip (V : ℚ) (tw : List (String × ℚ)) (priceOf : String → Option ℚ)
    (hnd : (tw.map (fun p : String × ℚ => p.1)).Nodup)
    (hp : ∀ p ∈ tw, ∃ pr, priceOf p.1 = some pr ∧ pr ≠ 0)
    (hsum : (tw.map (fun p : String × ℚ => p.2)).sum = 1) :
    ((buildHoldings V tw priceOf).map (fun q => q.2.shares * q.2.price_at_buy)).sum = V ∧
    ∀ (minA maxA : ℚ) (st : PState) (sel0 : List String)
      (po : String → Option ℚ) (st' : PState),
      rebalanceState minA maxA st sel0 po = some st' → st'.value = st.value := by
  constructor
  · rw [buildHoldings_sum V priceOf tw hp, hsum, mul_one]
  · intro minA maxA st sel0 po st' h
    unfold rebalanceState at h
    obtain ⟨a, _, hfa⟩ := Option.map_eq_some'.mp h
    rw [← hfa]

/-- Witness for c5_round_trip at a concrete input. -/
theorem c5_round_trip_witness :
    ((buildHoldings 1000 [("A", 1/2), ("B", 1/2)] (fun _ => some 10)).map
      (fun q => q.2.shares * q.2.price_at_buy)).sum = 1000 ∧
    ∀ (minA maxA : ℚ) (st : PState) (sel0 : List String)
      (po : String → Option ℚ) (st' : PState),
      rebalanceState minA maxA st sel0 po = some st' → st'.value = st.value :=
  c5_round_trip 1000 [("A", 1/2), ("B", 1/2)] (fun _ => some 10)
    (by decide) (fun p _ => ⟨10, rfl, by norm_num⟩) (by norm_num)

/-- C7: when the entry-price fetch yields no usable prices at all (the
lookup is none for every selected ticker — the empty-or-all-null dataframe
branch at line 261), the rebalance makes no change: the resulting portfolio
state is exactly the prior one, holdings and total value included. -/
theorem c7_no_usable_prices (minA maxA : ℚ) (st : PState) (sel0 : List String)
    (priceOf : String → Option ℚ)
    (hne : sel0 ≠ []) (h0 : 0 ≤ minA) (h1 : minA ≤ maxA) (hm1 : maxA ≤ 1) (h2 : 0 < maxA)
    (hall : ∀ t ∈ sel0, priceOf t = none) :
    rebalanceState minA maxA st sel0 priceOf = some st := by
  have hminA1 : minA ≤ 1 := le_trans h1 hm1
  have hs1ne : shrinkSelected sel0 minA ≠ [] := shrink_ne_nil sel0 minA hne h0 hminA1
  have hcn := clampNormalize_eq (shrinkSelected sel0 minA) minA maxA hs1ne h2
  have htwne : (shrinkSelected sel0 minA).map
      (fun t => (t, 1 / ((shrinkSelected sel0 minA).length : ℚ))) ≠ [] := by
    simpa using hs1ne
  have hallb : (shrinkSelected sel0 minA).all (fun t => (priceOf t).isNone) = true := by
    rw [List.all_eq_true]
    intro t ht
    rw [hall t (shrink_subset sel0 minA t ht)]
    rfl
  simp only [rebalanceState, rebalanceHoldings, if_neg hs1ne, hcn, if_neg htwne, hallb,
    if_true, Option.map_some']

/-- Witness for c7_no_usable_prices at a concrete input. -/
theorem c7_no_usable_prices_witness :
    rebalanceState 0 1 ⟨1000, []⟩ ["A"] (fun _ => none) = some ⟨1000, []⟩ :=
  c7_no_usable_prices 0 1 ⟨1000, []⟩ ["A"] (fun _ => none)
    (by simp) (by norm_num) (by norm_num) (by norm_num) (by norm_num)
    (fun t _ => rfl)

/-- C6: when the entry-price lookup succeeds (not the all-null branch) but
some selected tickers have no price, those tickers are dropped and the
weights are recomputed over the remaining tickers by re-clamping the equal
weight and renormalizing (the same clampNormalize as §4.3 steps 3-4,
duplicated at lines 275-278), the holdings are rebuilt from exactly those
weights, and the total value is unchanged.  The remaining list is provably
nonempty — a successful lookup prices at least one selected ticker — so the
"removal empties the mapping, liquidate to cash" clause of the claim is
vacuously satisfied (its branch at lines 279-281 is unreachable). -/
theorem c6_missing_price_recompute (minA maxA V : ℚ) (prior : List (String × Holding))
    (sel0 : List String) (priceOf : String → Option ℚ)
    (h0 : 0 ≤ minA) (h2 : 0 < maxA)
    (hsucc : (shrinkSelected sel0 minA).all (fun t => (priceOf t).isNone) = false)
    (hmiss : (shrinkSelected sel0 minA).filter (fun t => (priceOf t).isNone) ≠ []) :
    (shrinkSelected sel0 minA).filter (fun t => (priceOf t).isSome) ≠ [] ∧
    ∃ tw2, clampNormalize
        ((shrinkSelected sel0 minA).filter (fun t => (priceOf t).isSome)) minA maxA
        = some tw2 ∧
      tw2.map (fun p : String × ℚ => p.1)
        = (shrinkSelected sel0 minA).filter (fun t => (priceOf t).isSome) ∧
      (∀ p ∈ tw2, p.2
        = 1 / ((((shrinkSelected sel0 minA).filter
            (fun t => (priceOf t).isSome)).length : ℕ) : ℚ)) ∧
      rebalanceHoldings minA maxA V prior sel0 priceOf
        = some (buildHoldings V tw2 priceOf) ∧
      ∀ st' : PState,
        rebalanceState minA maxA ⟨V, prior⟩ sel0 priceOf = some st' → st'.value = V := by
  have hs1ne : shrinkSelected sel0 minA ≠ [] := by
    intro h
    rw [h] at hsucc
    simp at hsucc
  have hex : ∃ t ∈ shrinkSelected sel0 minA, (priceOf t).isSome = true := by
    by_contra hcon
    push_neg at hcon
    have : (shrinkSelected sel0 minA).all (fun t => (priceOf t).isNone) = true := by
      rw [List.all_eq_true]
      intro t ht
      cases hpt : priceOf t with
      | none => rfl
      | some v =>
        exact absurd (by rw [hpt]; rfl) (hcon t ht)
    rw [this] at hsucc
    exact absurd hsucc (by decide)
  obtain ⟨t0, ht0, ht0s⟩ := hex
  have hsel2ne : (shrinkSelected sel0 minA).filter (fun t => (priceOf t).isSome) ≠ [] := by
    intro h
    have : t0 ∈ (shrinkSelected sel0 minA).filter (fun t => (priceOf t).isSome) :=
      List.mem_filter.mpr ⟨ht0, by rw [ht0s]⟩
    rw [h] at this
    exact List.not_mem_nil t0 this
  have hcn1 := clampNormalize_eq (shrinkSelected sel0 minA) minA maxA hs1ne h2
  have htw1ne : (shrinkSelected sel0 minA).map
      (fun t => (t, 1 / ((shrinkSelected sel0 minA).length : ℚ))) ≠ [] := by
    simpa using hs1ne
  have hcn2 := clampNormalize_eq
    ((shrinkSelected sel0 minA).filter (fun t => (priceOf t).isSome)) minA maxA hsel2ne h2
  have htw2ne : ((shrinkSelected sel0 minA).filter (fun t => (priceOf t).isSome)).map
      (fun t => (t, 1 / ((((shrinkSelected sel0 minA).filter
        (fun t => (priceOf t).isSome)).length : ℕ) : ℚ))) ≠ [] := by
    simpa using hsel2ne
  have hc1 : ¬ ((shrinkSelected sel0 minA).all (fun t => (priceOf t).isNone) = true) := by
    rw [hsucc]
    exact Bool.false_ne_true
  have hkeys : ∀ (l : List String) (c : ℚ),
      (l.map (fun t => (t, c))).map (fun p : String × ℚ => p.1) = l := by
    intro l c
    induction l with
    | nil => rfl
    | cons a l ih => simp [ih]
  refine ⟨hsel2ne, _, hcn2, hkeys _ _, ?_, ?_, ?_⟩
  · intro p hp
    obtain ⟨t, _, rfl⟩ := List.mem_map.mp hp
    rfl
  · simp only [rebalanceHoldings, if_neg hs1ne, hcn1, if_neg htw1ne, if_neg hc1,
      if_neg hmiss, if_neg hsel2ne, hcn2, if_neg htw2ne]
  · intro st' h
    unfold rebalanceState at h
    obtain ⟨a, _, hfa⟩ := Option.map_eq_some'.mp h
    rw [← hfa]

/-- Witness for c6_missing_price_recompute at a concrete input: selected
tickers A and B, only A priced. -/
theorem c6_missing_price_recompute_witness :
    (shrinkSelected ["A", "B"] 0).filter
      (fun t => ((if t = "A" then some (10:ℚ) else none)).isSome) ≠ [] := by
  have hshr : shrinkSelected ["A", "B"] (0:ℚ) = ["A", "B"] := by
    norm_num [shrinkSelected]
  have h := (c6_missing_price_recompute 0 1 1000 [] ["A", "B"]
    (fun t => if t = "A" then some (10:ℚ) else none)
    (by norm_num) (by norm_num)
    (by rw [hshr]; decide)
    (by rw [hshr]; decide)).1
  exact h

/-- C9: a portfolio of exactly 100 shares of one ticker bought at price 10,
with no further trading, over the four business days Mon-Thu (days 4-7)
whose price series is 10, 11, missing (NaN cell), 12, produces the daily
value series 1000, 1100, 1100, 1200 — the missing day is valued at the last
known price via the forward fill. -/
theorem c9_simulator_series :
    ((simPeriod [4, 5, 6, 7]
        (fun d _ => if d = 4 then some 10 else if d = 5 then some 11
          else if d = 6 then none else if d = 7 then some 12 else none)
        (businessDays 4 7)
        ⟨[], 1000, [("T", ⟨100, 10, 1⟩)]⟩).hist.reverse.map
      (fun s => s.portfolio_value)) = [1000, 1100, 1100, 1200] := by
  have hdays : businessDays 4 7 = [4, 5, 6, 7] := by decide
  rw [hdays]
  norm_num [simPeriod, simDay, dayValue, ffillAt, lastKnownPrice, snapHoldings,
    List.foldl, List.filter, List.lookup]

/-- Membership in a business-day window. -/
theorem mem_businessDays_iff (a b d : ℕ) :
    d ∈ businessDays a b ↔ a ≤ d ∧ d ≤ b ∧ isBusinessDay d = true := by
  simp only [businessDays, List.mem_filter, List.mem_map, List.mem_range]
  constructor
  · rintro ⟨⟨k, hk, rfl⟩, hb⟩
    exact ⟨by omega, by omega, hb⟩
  · rintro ⟨h1, h2, hb⟩
    exact ⟨⟨d - a, by omega, by omega⟩, hb⟩

/-- Business-day windows are strictly increasing. -/
theorem businessDays_pairwise (a b : ℕ) : (businessDays a b).Pairwise (· < ·) := by
  have h0 : ((List.range (b + 1 - a)).map (fun k => a + k)).Pairwise (· < ·) := by
    refine List.Pairwise.map _ ?_ (List.pairwise_lt_range _)
    intro x y hxy
    omega
  exact h0.filter _

/-- Every branch of the daily step either keeps the history or pushes one
snapshot dated at the processed day. -/
theorem simDay_shape (idx : List ℕ) (raw : ℕ → String → Option ℚ)
    (st : SimState) (d : ℕ) :
    (simDay idx raw st d).hist = st.hist ∨
    ∃ sn : Snapshot, sn.date = d ∧ (simDay idx raw st d).hist = sn :: st.hist := by
  unfold simDay
  split
  · exact Or.inr ⟨_, rfl, rfl⟩
  · split
    · split
      · exact Or.inr ⟨_, rfl, rfl⟩
      · split
        · exact Or.inr ⟨_, rfl, rfl⟩
        · exact Or.inr ⟨_, rfl, rfl⟩
    · split
      · split
        · exact Or.inr ⟨_, rfl, rfl⟩
        · exact Or.inl rfl
      · exact Or.inr ⟨_, rfl, rfl⟩

/-- When every recorded date is older than the processed day, the daily
step always pushes exactly one snapshot dated at that day (the claim's
"a snapshot is appended for every business day"). -/
theorem simDay_cons (idx : List ℕ) (raw : ℕ → String → Option ℚ)
    (st : SimState) (d : ℕ) (hinv : ∀ s ∈ st.hist, s.date < d) :
    ∃ sn : Snapshot, sn.date = d ∧ (simDay idx raw st d).hist = sn :: st.hist := by
  unfold simDay
  split
  · exact ⟨_, rfl, rfl⟩
  · split
    · split
      · exact ⟨_, rfl, rfl⟩
      · split
        · exact ⟨_, rfl, rfl⟩
        · exact ⟨_, rfl, rfl⟩
    · split
      · split
        · exact ⟨_, rfl, rfl⟩
        · rename_i s tail heq hns
          exact absurd (hinv s (by rw [heq]; exact List.mem_cons_self s tail)) hns
      · exact ⟨_, rfl, rfl⟩

/-- The daily step never drops recorded snapshots. -/
theorem simDay_mono (idx : List ℕ) (raw : ℕ → String → Option ℚ)
    (st : SimState) (d : ℕ) (s : Snapshot) (hs : s ∈ st.hist) :
    s ∈ (simDay idx raw st d).hist := by
  rcases simDay_shape idx raw st d with h | ⟨sn, _, h⟩
  · rw [h]; exact hs
  · rw [h]; exact List.mem_cons_of_mem sn hs

/-- The period simulation never drops recorded snapshots. -/
theorem simPeriod_mono (idx : List ℕ) (raw : ℕ → String → Option ℚ) :
    ∀ (days : List ℕ) (st : SimState) (s : Snapshot), s ∈ st.hist →
      s ∈ (simPeriod idx raw days st).hist := by
  intro days
  induction days with
  | nil => intro st s hs; exact hs
  | cons d ds ih =>
    intro st s hs
    exact ih (simDay idx raw st d) s (simDay_mono idx raw st d s hs)

/-- Every snapshot after a period simulation either predates the period or
is dated at one of its days. -/
theorem simPeriod_dates (idx : List ℕ) (raw : ℕ → String → Option ℚ) :
    ∀ (days : List ℕ) (st : SimState) (s : Snapshot),
      s ∈ (simPeriod idx raw days st).hist → s ∈ st.hist ∨ s.date ∈ days := by
  intro days
  induction days with
  | nil => intro st s hs; exact Or.inl hs
  | cons d ds ih =>
    intro st s hs
    rcases ih (simDay idx raw st d) s hs with h | h
    · rcases simDay_shape idx raw st d with h' | ⟨sn, hd, h'⟩
      · rw [h'] at h; exact Or.inl h
      · rw [h'] at h
        rcases List.mem_cons.mp h with rfl | h
        · exact Or.inr (by rw [hd]; exact List.mem_cons_self d ds)
        · exact Or.inl h
    · exact Or.inr (List.mem_cons_of_mem d h)

/-- Coverage: over a strictly increasing day list whose days all postdate
the recorded history, the period simulation records a snapshot for every
day. -/
theorem simPeriod_cover (idx : List ℕ) (raw : ℕ → String → Option ℚ) :
    ∀ (days : List ℕ) (st : SimState),
      days.Pairwise (· < ·) →
      (∀ s ∈ st.hist, ∀ d ∈ days, s.date < d) →
      ∀ d ∈ days, ∃ s ∈ (simPeriod idx raw days st).hist, s.date = d := by
  intro days
  induction days with
  | nil => intro st _ _ d hd; exact absurd hd (List.not_mem_nil d)
  | cons e ds ih =>
    intro st hpw hinv d hd
    obtain ⟨sn, hdate, hh⟩ := simDay_cons idx raw st e
      (fun s hs => hinv s hs e (List.mem_cons_self e ds))
    rcases List.mem_cons.mp hd with rfl | hd'
    · refine ⟨sn, ?_, hdate⟩
      exact simPeriod_mono idx raw ds _ sn (by rw [hh]; exact List.mem_cons_self sn st.hist)
    · rw [List.pairwise_cons] at hpw
      refine ih (simDay idx raw st e) hpw.2 ?_ d hd'
      intro s hs d' hd''
      rw [hh] at hs
      rcases List.mem_cons.mp hs with rfl | hs'
      · rw [hdate]
        exact hpw.1 d' hd''
      · exact hinv s hs' d' (List.mem_cons_of_mem e hd'')

/-- The degraded-fundamentals branch never drops recorded snapshots. -/
theorem skipState_mono (r : ℕ) (st : SimState) (s : Snapshot) (hs : s ∈ st.hist) :
    s ∈ (skipState r st).hist := by
  unfold skipState
  split
  · exact hs
  · exact List.mem_cons_of_mem _ hs

/-- The rebalance loop never drops recorded snapshots. -/
theorem runAux_mono (endD : ℕ) (p : Params) (big : List AssetRecord → List AssetRecord)
    (fund : ℕ → List AssetRecord)
    (entry : ℕ → String → Option ℚ) (didx : ℕ → List ℕ)
    (draw : ℕ → ℕ → String → Option ℚ) :
    ∀ (dates : List ℕ) (st stF : SimState),
      runAux endD p big fund entry didx draw dates st = some stF →
      ∀ s ∈ st.hist, s ∈ stF.hist := by
  intro dates
  induction dates with
  | nil =>
    intro st stF h s hs
    simp only [runAux, Option.some.injEq] at h
    rw [← h]
    exact hs
  | cons r rest ih =>
    intro st stF h s hs
    simp only [runAux] at h
    by_cases hf : fund r = []
    · rw [if_pos hf] at h
      exact ih _ _ h s (skipState_mono r st s hs)
    · rw [if_neg hf] at h
      cases hrb : (if selectAssets big p.minP p.minV p.topN p.maxAssets (fund r) = []
          then some st.holdings
          else rebalanceHoldings p.minA p.maxA st.value st.holdings
            (selectAssets big p.minP p.minV p.topN p.maxAssets (fund r)) (entry r)) with
      | none =>
        rw [hrb] at h
        exact absurd h (by simp)
      | some hh =>
        rw [hrb] at h
        exact ih _ _ h s
          (simPeriod_mono (didx r) (draw r)
            (businessDays r (nextEnd endD rest)) ⟨st.hist, st.value, hh⟩ s hs)

/-- Coverage of the rebalance loop: with nonempty fundamentals at every
scheduled date, every business day that lies at or after some scheduled
date and at or before the end date receives a snapshot. -/
theorem runAux_cover (endD : ℕ) (p : Params) (big : List AssetRecord → List AssetRecord)
    (fund : ℕ → List AssetRecord)
    (entry : ℕ → String → Option ℚ) (didx : ℕ → List ℕ)
    (draw : ℕ → ℕ → String → Option ℚ) :
    ∀ (dates : List ℕ) (st stF : SimState),
      dates.Pairwise (· < ·) →
      (∀ r ∈ dates, fund r ≠ []) →
      (∀ s ∈ st.hist, ∀ r ∈ dates, s.date < r) →
      runAux endD p big fund entry didx draw dates st = some stF →
      ∀ d, isBusinessDay d = true → d ≤ endD → (∃ r ∈ dates, r ≤ d) →
        ∃ s ∈ stF.hist, s.date = d := by
  intro dates
  induction dates with
  | nil =>
    intro st stF _ _ _ _ d _ _ hex
    obtain ⟨r, hr, _⟩ := hex
    exact absurd hr (List.not_mem_nil r)
  | cons r rest ih =>
    intro st stF hpw hfund hinv hrun d hb hdle hex
    simp only [runAux] at hrun
    rw [if_neg (hfund r (List.mem_cons_self r rest))] at hrun
    cases hrb : (if selectAssets big p.minP p.minV p.topN p.maxAssets (fund r) = []
        then some st.holdings
        else rebalanceHoldings p.minA p.maxA st.value st.holdings
          (selectAssets big p.minP p.minV p.topN p.maxAssets (fund r)) (entry r)) with
    | none =>
      rw [hrb] at hrun
      exact absurd hrun (by simp)
    | some hh =>
      rw [hrb] at hrun
      rw [List.pairwise_cons] at hpw
      obtain ⟨hrlt, hpw'⟩ := hpw
      have hinvdays : ∀ s ∈ (⟨st.hist, st.value, hh⟩ : SimState).hist,
          ∀ dd ∈ businessDays r (nextEnd endD rest), s.date < dd := by
        intro s hs dd hdd
        have h1 : s.date < r := hinv s hs r (List.mem_cons_self r rest)
        have h2 : r ≤ dd := ((mem_businessDays_iff _ _ _).mp hdd).1
        omega
      cases rest with
      | nil =>
        have hstF : simPeriod (didx r) (draw r) (businessDays r (nextEnd endD []))
            ⟨st.hist, st.value, hh⟩ = stF := by
          simpa [runAux] using hrun
        obtain ⟨r', hr', hr'le⟩ := hex
        have hrr' : r' = r := by
          rcases List.mem_cons.mp hr' with h | h
          · exact h
          · exact absurd h (List.not_mem_nil r')
        have hdmem : d ∈ businessDays r (nextEnd endD []) := by
          rw [mem_businessDays_iff]
          exact ⟨by omega, hdle, hb⟩
        obtain ⟨s, hs, hsd⟩ := simPeriod_cover (didx r) (draw r)
          (businessDays r (nextEnd endD [])) ⟨st.hist, st.value, hh⟩
          (businessDays_pairwise _ _) hinvdays d hdmem
        rw [hstF] at hs
        exact ⟨s, hs, hsd⟩
      | cons r2 rest' =>
        have hnext : nextEnd endD (r2 :: rest') = r2 - 1 := rfl
        have hr2r : r < r2 := hrlt r2 (List.mem_cons_self r2 rest')
        by_cases hd2 : r2 ≤ d
        · refine ih (simPeriod (didx r) (draw r) (businessDays r (nextEnd endD (r2 :: rest')))
              ⟨st.hist, st.value, hh⟩) stF hpw'
            (fun rr hrr => hfund rr (List.mem_cons_of_mem r hrr)) ?_ hrun d hb hdle
            ⟨r2, List.mem_cons_self r2 rest', hd2⟩
          intro s hs rr hrr
          have hrr2 : r2 ≤ rr := by
            rcases List.mem_cons.mp hrr with h | h
            · omega
            · rw [List.pairwise_cons] at hpw'
              exact le_of_lt (hpw'.1 rr h)
          rcases simPeriod_dates (didx r) (draw r) _ _ s hs with h | h
          · have := hinv s h rr (List.mem_cons_of_mem r hrr)
            omega
          · have hsd := ((mem_businessDays_iff _ _ _).mp h).2.1
            rw [hnext] at hsd
            omega
        · obtain ⟨r', hr', hr'le⟩ := hex
          have hrd : r ≤ d := by
            rcases List.mem_cons.mp hr' with h | h
            · omega
            · have : r2 ≤ r' := by
                rcases List.mem_cons.mp h with h' | h'
                · omega
                · rw [List.pairwise_cons] at hpw'
                  exact le_of_lt (hpw'.1 r' h')
              omega
          have hdmem : d ∈ businessDays r (nextEnd endD (r2 :: rest')) := by
            rw [mem_businessDays_iff, hnext]
            exact ⟨hrd, by omega, hb⟩
          obtain ⟨s, hs, hsd⟩ := simPeriod_cover (didx r) (draw r)
            (businessDays r (nextEnd endD (r2 :: rest'))) ⟨st.hist, st.value, hh⟩
            (businessDays_pairwise _ _) hinvdays d hdmem
          exact ⟨s, runAux_mono endD p big fund entry didx draw (r2 :: rest') _ stF hrun s hs, hsd⟩

/-- C2 counterexample: a run whose single rebalance date (day 0, the first
business day of January 1970) gets an empty fundamentals dataframe takes
the skip branch (lines 164-174) past the whole daily simulation, so the
recorded history is empty even though business days 0 and 1 lie between the
first rebalance date and the end date — the claimed gapless coverage fails
for the degraded-fundamentals branch. -/
theorem c2_counterexample :
    run_backtest 0 1 Frequency.monthly ⟨0, 0, 0, 10, 0, 1, 1000⟩ (fun l => l)
        (fun _ => []) (fun _ _ => none) (fun _ => []) (fun _ _ _ => none) = some [] ∧
    get_rebalance_dates 0 1 Frequency.monthly = [0] ∧
    isBusinessDay 0 = true ∧
    ¬ (∃ s, s ∈ ([] : List Snapshot) ∧ s.date = 0) := by
  refine ⟨?_, by decide, by decide, by simp⟩
  have hd : get_rebalance_dates 0 1 Frequency.monthly = [0] := by decide
  simp [run_backtest, hd, runAux, skipState]

/-- C2 (amended): for every run that reaches the simulation loop (at least
one rebalance date) and completes, in which the fundamentals fetch is
nonempty at every rebalance date — i.e. the degraded-rebalance skip branch
of lines 164-174 never fires — the recorded history contains a snapshot
for every business day from the first rebalance date through the backtest
end date, whichever of the remaining branches (computed, price-fallback,
carry-forward, cash, degraded price fetch) is taken each day.  When the
skip branch does fire the days of that rebalance period are absent (see
c2_counterexample). -/
theorem c2_amended (startD endD : ℕ) (freq : Frequency) (p : Params)
    (big : List AssetRecord → List AssetRecord)
    (fund : ℕ → List AssetRecord) (entry : ℕ → String → Option ℚ)
    (didx : ℕ → List ℕ) (draw : ℕ → ℕ → String → Option ℚ)
    (r0 : ℕ) (rest : List ℕ) (hist : List Snapshot)
    (hdates : get_rebalance_dates startD endD freq = r0 :: rest)
    (hfund : ∀ r ∈ get_rebalance_dates startD endD freq, fund r ≠ [])
    (hrun : run_backtest startD endD freq p big fund entry didx draw = some hist)
    (d : ℕ) (hb : isBusinessDay d = true) (h1 : r0 ≤ d) (h2 : d ≤ endD) :
    ∃ s ∈ hist, s.date = d := by
  have hne : get_rebalance_dates startD endD freq ≠ [] := by
    rw [hdates]
    exact List.cons_ne_nil r0 rest
  unfold run_backtest at hrun
  rw [if_neg hne] at hrun
  obtain ⟨stF, hrF, hrev⟩ := Option.map_eq_some'.mp hrun
  obtain ⟨s, hs, hsd⟩ := runAux_cover endD p big fund entry didx draw
    (get_rebalance_dates startD endD freq) ⟨[], p.initV, []⟩ stF
    (rebalance_dates_sorted startD endD freq) hfund
    (by intro s hs; exact absurd hs (List.not_mem_nil s)) hrF d hb h2
    ⟨r0, by rw [hdates]; exact List.mem_cons_self r0 rest, h1⟩
  refine ⟨s, ?_, hsd⟩
  rw [← hrev]
  exact List.mem_reverse.mpr hs

/-- Witness for c2_amended: one rebalance date (day 0) with nonempty
fundamentals whose single record fails the quality filter, so the run stays
in cash and still records both business days; day 0 has its snapshot. -/
theorem c2_amended_witness :
    ∃ s ∈ [Snapshot.mk 0 1000 [], Snapshot.mk 1 1000 []], s.date = 0 := by
  have hd : get_rebalance_dates 0 1 Frequency.monthly = [0] := by decide
  have hsel : selectAssets (fun l => l) 1 0 0 10 [⟨"A", 0, 0⟩] = [] := by
    norm_num [selectAssets, filterByScores, pandasSortDesc, sortAsc, pandasHead, List.filter]
  have hdays : businessDays 0 1 = [0, 1] := by decide
  have hrun : run_backtest 0 1 Frequency.monthly ⟨1, 0, 0, 10, 0, 1, 1000⟩ (fun l => l)
      (fun _ => [⟨"A", 0, 0⟩]) (fun _ _ => none) (fun _ => []) (fun _ _ _ => none)
      = some [Snapshot.mk 0 1000 [], Snapshot.mk 1 1000 []] := by
    simp [run_backtest, hd, runAux, hsel, nextEnd, hdays, simPeriod, simDay, List.foldl]
  exact c2_amended 0 1 Frequency.monthly ⟨1, 0, 0, 10, 0, 1, 1000⟩ (fun l => l)
    (fun _ => [⟨"A", 0, 0⟩]) (fun _ _ => none) (fun _ => []) (fun _ _ _ => none)
    0 [] [Snapshot.mk 0 1000 [], Snapshot.mk 1 1000 []]
    hd (fun r _ => by simp) hrun 0 (by decide) (le_refl 0) (by norm_num)
